import Mathlib

/-!
Shallow embedding of `src/Rules.js` — the Yahtzee rule-evaluation library.

Dice are modelled as `List ℕ` (JS arrays of numbers); a valid roll has
exactly 5 dice, each in [1,6].  Each rule subclass's `evalRoll` is
translated to a Lean function.  JS `Map` iteration order (insertion =
first-seen order of keys) and JS default `Array.prototype.sort`
(lexicographic on decimal string representations) are modelled explicitly.
-/

namespace Rules

/-- The keys of the JS `Map` built by `Rule.freq`, in insertion order:
the distinct dice values in order of first appearance.  `seen` is the
set of keys already inserted. -/
def mapKeysAux (seen : List ℕ) : List ℕ → List ℕ
  | [] => []
  | d :: ds => if d ∈ seen then mapKeysAux seen ds else d :: mapKeysAux (d :: seen) ds

/-- Distinct dice values in first-seen order (JS `Map` / `Set` iteration order). -/
def distinctFirstSeen (dice : List ℕ) : List ℕ := mapKeysAux [] dice

/-- `Rule.sum(dice)`: `dice.reduce((prev, curr) => prev + curr)`.
JS `reduce` without an initial value throws on an empty array, modelled
as `none`; otherwise it folds from the left starting at the first element. -/
def Rule.sum (dice : List ℕ) : Option ℕ :=
  match dice with
  | [] => none
  | d :: ds => some (ds.foldl (fun prev curr => prev + curr) d)

/-- `Rule.freq(dice)`: builds a `Map` from value to occurrence count and
returns `Array.from(freqs.values())` — the counts in first-seen key order. -/
def Rule.freq (dice : List ℕ) : List ℕ :=
  (distinctFirstSeen dice).map (fun v => dice.count v)

/-- `Rule.count(dice, val)`: `dice.filter(d => d === val).length`. -/
def Rule.count (dice : List ℕ) (val : ℕ) : ℕ :=
  (dice.filter (fun d => d = val)).length

/-- `TotalOneNumber.evalRoll`: `this.val * this.count(dice, this.val)`. -/
def TotalOneNumber.evalRoll (val : ℕ) (dice : List ℕ) : ℕ :=
  val * Rule.count dice val

/-- `SumDistro.evalRoll`: `this.freq(dice).some(c => c >= this.count) ? this.sum(dice) : 0`. -/
def SumDistro.evalRoll (cnt : ℕ) (dice : List ℕ) : Option ℕ :=
  if (Rule.freq dice).any (fun c => decide (cnt ≤ c)) then Rule.sum dice else some 0

/-- `FullHouse.evalRoll`: `f = this.freq(dice)`; qualifies when
`(f[0] === 3 && f[1] === 2) || (f[0] === 2 && f[1] === 3)`; JS indexing
out of range yields `undefined`, which compares unequal to any number,
modelled by `getElem?` into `Option ℕ`. -/
def FullHouse.evalRoll (score : ℕ) (dice : List ℕ) : ℕ :=
  let f := Rule.freq dice
  if (f[0]? = some 3 ∧ f[1]? = some 2) ∨ (f[0]? = some 2 ∧ f[1]? = some 3)
  then score else 0

/-- Lexicographic `<` on JS strings as lists of character code units:
JS `a < b` string comparison. -/
def charListLt : List Char → List Char → Bool
  | [], [] => false
  | [], _ :: _ => true
  | _ :: _, [] => false
  | a :: as, b :: bs =>
      a.toNat < b.toNat || (a.toNat = b.toNat && charListLt as bs)

/-- The ordering used by JS default `Array.prototype.sort`: element `a`
precedes `b` when `String(a) < String(b)` fails for the reversed pair,
i.e. `le a b = ¬(String(b) < String(a))`.  `Nat.toDigits 10 n` is the
decimal string `String(n)`. -/
def jsLe (a b : ℕ) : Bool := ! charListLt (Nat.toDigits 10 b) (Nat.toDigits 10 a)

/-- Numeric ascending comparator (the spec's "ascending numeric order"). -/
def numLe (a b : ℕ) : Bool := decide (a ≤ b)

/-- Insert `a` into `l` before the first element `b` with `le a b`. -/
def insertBy (le : ℕ → ℕ → Bool) (a : ℕ) : List ℕ → List ℕ
  | [] => [a]
  | b :: l => if le a b then a :: b :: l else b :: insertBy le a l

/-- Sort by the comparator `le` (insertion sort).  Models the outcome of
`Array.prototype.sort` with a consistent comparator: a permutation of the
input that is sorted by `le`. -/
def sortBy (le : ℕ → ℕ → Bool) : List ℕ → List ℕ
  | [] => []
  | a :: l => insertBy le a (sortBy le l)

/-- The loop body of `SmallStraight.evalRoll`: walk adjacent pairs of the
sorted distinct values; on `d[i] + 1 === d[i+1]` increment the running
streak and update the maximum, otherwise reset the streak to 1. -/
def SmallStraight.scan (highest consec : ℕ) : List ℕ → ℕ
  | a :: b :: rest =>
      if a + 1 = b then SmallStraight.scan (max highest (consec + 1)) (consec + 1) (b :: rest)
      else SmallStraight.scan highest 1 (b :: rest)
  | _ => highest

/-- `SmallStraight.evalRoll`: `d = Array.from(new Set(dice)).sort()`
(first-seen distinct values sorted with the default string comparator),
then the consecutive-run scan; score when the longest run is ≥ 4. -/
def SmallStraight.evalRoll (score : ℕ) (dice : List ℕ) : ℕ :=
  let d := sortBy jsLe (distinctFirstSeen dice)
  if 4 ≤ SmallStraight.scan 0 1 d then score else 0

/-- The spec's description of small straight: sort the distinct values in
ascending numeric order, then run the same scan.  Used for the
refinement claim comparing the JS default sort with numeric sort. -/
def SmallStraightNumeric.evalRoll (score : ℕ) (dice : List ℕ) : ℕ :=
  let d := sortBy numLe (distinctFirstSeen dice)
  if 4 ≤ SmallStraight.scan 0 1 d then score else 0

/-- `LargeStraight.evalRoll`: `d = new Set(dice)`;
`d.size === 5 && (!d.has(1) || !d.has(6)) ? this.score : 0`. -/
def LargeStraight.evalRoll (score : ℕ) (dice : List ℕ) : ℕ :=
  let d := distinctFirstSeen dice
  if d.length = 5 ∧ (1 ∉ d ∨ 6 ∉ d) then score else 0

/-- `Yahtzee.evalRoll`: `(this.freq(dice)[0] === 5) ? this.score : 0`. -/
def Yahtzee.evalRoll (score : ℕ) (dice : List ℕ) : ℕ :=
  if (Rule.freq dice)[0]? = some 5 then score else 0

/-- `const ones = new TotalOneNumber({ val: 1 })`. -/
def ones (dice : List ℕ) : ℕ := TotalOneNumber.evalRoll 1 dice

/-- `const twos = new TotalOneNumber({ val: 2 })`. -/
def twos (dice : List ℕ) : ℕ := TotalOneNumber.evalRoll 2 dice

/-- `const threes = new TotalOneNumber({ val: 3 })`. -/
def threes (dice : List ℕ) : ℕ := TotalOneNumber.evalRoll 3 dice

/-- `const fours = new TotalOneNumber({ val: 4 })`. -/
def fours (dice : List ℕ) : ℕ := TotalOneNumber.evalRoll 4 dice

/-- `const fives = new TotalOneNumber({ val: 5 })`. -/
def fives (dice : List ℕ) : ℕ := TotalOneNumber.evalRoll 5 dice

/-- `const sixes = new TotalOneNumber({ val: 6 })`. -/
def sixes (dice : List ℕ) : ℕ := TotalOneNumber.evalRoll 6 dice

/-- `const threeOfKind = new SumDistro({ count: 3 })`. -/
def threeOfKind (dice : List ℕ) : Option ℕ := SumDistro.evalRoll 3 dice

/-- `const fourOfKind = new SumDistro({ count: 4 })`. -/
def fourOfKind (dice : List ℕ) : Option ℕ := SumDistro.evalRoll 4 dice

/-- `const fullHouse = new FullHouse({ score: 25 })`. -/
def fullHouse (dice : List ℕ) : ℕ := FullHouse.evalRoll 25 dice

/-- `const smallStraight = new SmallStraight({ score: 30 })`. -/
def smallStraight (dice : List ℕ) : ℕ := SmallStraight.evalRoll 30 dice

/-- `const largeStraight = new LargeStraight({ score: 40 })`. -/
def largeStraight (dice : List ℕ) : ℕ := LargeStraight.evalRoll 40 dice

/-- `const yahtzee = new Yahtzee({ score: 50 })`. -/
def yahtzee (dice : List ℕ) : ℕ := Yahtzee.evalRoll 50 dice

/-- `const chance = new SumDistro({ count: 0 })`. -/
def chance (dice : List ℕ) : Option ℕ := SumDistro.evalRoll 0 dice

/-- A valid roll: exactly 5 dice, each value in [1,6]. -/
def validRoll (dice : List ℕ) : Prop :=
  dice.length = 5 ∧ ∀ x ∈ dice, 1 ≤ x ∧ x ≤ 6

instance (dice : List ℕ) : Decidable (validRoll dice) :=
  decidable_of_iff (dice.length = 5 ∧ ∀ x ∈ dice, 1 ≤ x ∧ x ≤ 6) Iff.rfl

/-- The spec's full-house condition: the multiset of frequency counts is
exactly {3,2} — one face appears exactly 3 times and another exactly 2 times. -/
def hasFullHousePattern (dice : List ℕ) : Prop :=
  ∃ a ∈ dice, ∃ b ∈ dice, a ≠ b ∧ List.count a dice = 3 ∧ List.count b dice = 2

instance (dice : List ℕ) : Decidable (hasFullHousePattern dice) :=
  decidable_of_iff
    (∃ a ∈ dice, ∃ b ∈ dice, a ≠ b ∧ List.count a dice = 3 ∧ List.count b dice = 2) Iff.rfl

/-- The spec's small-straight condition: four consecutive face values are
all present in the roll, i.e. the longest run of consecutive integers among
the sorted distinct values has length at least 4. -/
def hasRunOfFour (dice : List ℕ) : Prop :=
  ∃ x ∈ dice, x + 1 ∈ dice ∧ x + 2 ∈ dice ∧ x + 3 ∈ dice

instance (dice : List ℕ) : Decidable (hasRunOfFour dice) :=
  decidable_of_iff (∃ x ∈ dice, x + 1 ∈ dice ∧ x + 2 ∈ dice ∧ x + 3 ∈ dice) Iff.rfl

/-- The spec's yahtzee condition: all dice show the same value. -/
def allSameValue (dice : List ℕ) : Prop :=
  ∃ v ∈ dice, ∀ x ∈ dice, x = v

instance (dice : List ℕ) : Decidable (allSameValue dice) :=
  decidable_of_iff (∃ v ∈ dice, ∀ x ∈ dice, x = v) Iff.rfl

/-! ### Basic lemmas about the shared helpers -/

theorem count_eq (dice : List ℕ) (v : ℕ) : Rule.count dice v = List.count v dice := by
  induction dice with
  | nil => rfl
  | cons d ds ih =>
      by_cases h : d = v <;>
        simp [Rule.count, List.filter_cons, List.count_cons, h] at * <;> omega

theorem foldl_add_eq (ds : List ℕ) :
    ∀ d : ℕ, ds.foldl (fun prev curr => prev + curr) d = d + ds.sum := by
  induction ds with
  | nil => intro d; simp
  | cons a t ih => intro d; rw [List.foldl_cons, ih, List.sum_cons]; omega

theorem sum_eq_of_ne_nil (dice : List ℕ) (h : dice ≠ []) :
    Rule.sum dice = some dice.sum := by
  cases dice with
  | nil => exact absurd rfl h
  | cons d ds => rw [Rule.sum, foldl_add_eq, List.sum_cons]

theorem mem_mapKeysAux (l : List ℕ) :
    ∀ (seen : List ℕ) (x : ℕ), x ∈ mapKeysAux seen l ↔ x ∈ l ∧ x ∉ seen := by
  induction l with
  | nil => intro seen x; simp [mapKeysAux]
  | cons d ds ih =>
      intro seen x
      by_cases hd : d ∈ seen
      · rw [mapKeysAux, if_pos hd, ih]
        constructor
        · rintro ⟨h1, h2⟩; exact ⟨List.mem_cons_of_mem d h1, h2⟩
        · rintro ⟨h1, h2⟩
          rcases List.mem_cons.mp h1 with rfl | h1
          · exact absurd hd h2
          · exact ⟨h1, h2⟩
      · rw [mapKeysAux, if_neg hd]
        rw [List.mem_cons, ih]
        by_cases hx : x = d
        · subst hx; simp [hd]
        · simp [hx, List.mem_cons]

theorem nodup_mapKeysAux (l : List ℕ) : ∀ seen : List ℕ, (mapKeysAux seen l).Nodup := by
  induction l with
  | nil => intro seen; simp [mapKeysAux]
  | cons d ds ih =>
      intro seen
      by_cases hd : d ∈ seen
      · rw [mapKeysAux, if_pos hd]; exact ih seen
      · rw [mapKeysAux, if_neg hd, List.nodup_cons]
        refine ⟨fun hmem => ?_, ih _⟩
        exact ((mem_mapKeysAux ds _ d).mp hmem).2 (List.mem_cons_self d seen)

theorem mem_distinctFirstSeen (dice : List ℕ) (x : ℕ) :
    x ∈ distinctFirstSeen dice ↔ x ∈ dice := by
  rw [distinctFirstSeen, mem_mapKeysAux]; simp

theorem nodup_distinctFirstSeen (dice : List ℕ) : (distinctFirstSeen dice).Nodup :=
  nodup_mapKeysAux dice []

theorem toFinset_distinctFirstSeen (dice : List ℕ) :
    (distinctFirstSeen dice).toFinset = dice.toFinset := by
  ext x; simp [List.mem_toFinset, mem_distinctFirstSeen]

theorem freq_getElem? {dice : List ℕ} {i c : ℕ}
    (h : (Rule.freq dice)[i]? = some c) :
    ∃ v ∈ dice, List.count v dice = c := by
  rw [Rule.freq, List.getElem?_map] at h
  cases hk : (distinctFirstSeen dice)[i]? with
  | none => rw [hk] at h; simp at h
  | some k =>
      rw [hk] at h
      simp only [Option.map_some'] at h
      exact ⟨k, (mem_distinctFirstSeen dice k).mp (List.getElem?_mem hk),
        Option.some_injective ℕ h⟩

/-! ### Full house characterization -/

theorem count_sum_three_le {dice : List ℕ} {a b x : ℕ} (ha : a ∈ dice) (hb : b ∈ dice)
    (hx : x ∈ dice) (hab : a ≠ b) (hax : a ≠ x) (hbx : b ≠ x) :
    List.count a dice + List.count b dice + List.count x dice ≤ dice.length := by
  have hsub : ({a, b, x} : Finset ℕ) ⊆ dice.toFinset := by
    intro y hy
    simp only [Finset.mem_insert, Finset.mem_singleton] at hy
    rcases hy with rfl | rfl | rfl
    · exact List.mem_toFinset.mpr ha
    · exact List.mem_toFinset.mpr hb
    · exact List.mem_toFinset.mpr hx
  have h1 : ∑ v ∈ ({a, b, x} : Finset ℕ), List.count v dice
      ≤ ∑ v ∈ dice.toFinset, List.count v dice := Finset.sum_le_sum_of_subset hsub
  rw [List.sum_toFinset_count_eq_length] at h1
  have h2 : ∑ v ∈ ({a, b, x} : Finset ℕ), List.count v dice
      = List.count a dice + (List.count b dice + List.count x dice) := by
    rw [Finset.sum_insert (by simp [Finset.mem_insert, Finset.mem_singleton, hab, hax]),
      Finset.sum_insert (by simp [Finset.mem_singleton, hbx]), Finset.sum_singleton]
  omega

theorem all_mem_eq_of_pattern {dice : List ℕ} (h5 : dice.length = 5)
    {a b : ℕ} (ha : a ∈ dice) (hb : b ∈ dice) (hab : a ≠ b)
    (hca : List.count a dice = 3) (hcb : List.count b dice = 2) :
    ∀ x ∈ dice, x = a ∨ x = b := by
  intro x hx
  by_contra hcon
  push_neg at hcon
  have h3 := count_sum_three_le ha hb hx hab
    (fun h => hcon.1 h.symm) (fun h => hcon.2 h.symm)
  have hx1 : 0 < List.count x dice := List.count_pos_iff.mpr hx
  omega

theorem freq_of_pattern {dice : List ℕ} (h5 : dice.length = 5)
    (hP : hasFullHousePattern dice) :
    Rule.freq dice = [3, 2] ∨ Rule.freq dice = [2, 3] := by
  obtain ⟨a, ha, b, hb, hab, hca, hcb⟩ := hP
  have hall := all_mem_eq_of_pattern h5 ha hb hab hca hcb
  have hnd := nodup_distinctFirstSeen dice
  have hmema : a ∈ distinctFirstSeen dice := (mem_distinctFirstSeen dice a).mpr ha
  have hmemb : b ∈ distinctFirstSeen dice := (mem_distinctFirstSeen dice b).mpr hb
  rcases hdfs : distinctFirstSeen dice with _ | ⟨u, _ | ⟨v, _ | ⟨w, r⟩⟩⟩
  · rw [hdfs] at hmema
    exact absurd hmema (List.not_mem_nil a)
  · rw [hdfs] at hmema hmemb
    have h1 := List.mem_singleton.mp hmema
    have h2 := List.mem_singleton.mp hmemb
    exact absurd (h1.trans h2.symm) hab
  · have hfreq : Rule.freq dice = [List.count u dice, List.count v dice] := by
      rw [Rule.freq, hdfs]; rfl
    have huv : u ≠ v := by
      rw [hdfs] at hnd
      simpa using (List.nodup_cons.mp hnd).1
    have hu : u ∈ dice := (mem_distinctFirstSeen dice u).mp (by rw [hdfs]; simp)
    have hv : v ∈ dice := (mem_distinctFirstSeen dice v).mp (by rw [hdfs]; simp)
    rcases hall u hu with rfl | rfl <;> rcases hall v hv with rfl | rfl
    · exact absurd rfl huv
    · left; rw [hfreq, hca, hcb]
    · right; rw [hfreq, hca, hcb]
    · exact absurd rfl huv
  · have hu : u ∈ dice := (mem_distinctFirstSeen dice u).mp (by rw [hdfs]; simp)
    have hv : v ∈ dice := (mem_distinctFirstSeen dice v).mp (by rw [hdfs]; simp)
    have hw : w ∈ dice := (mem_distinctFirstSeen dice w).mp (by rw [hdfs]; simp)
    rw [hdfs] at hnd
    have h1 : u ∉ v :: w :: r := (List.nodup_cons.mp hnd).1
    have h2 : v ∉ w :: r := (List.nodup_cons.mp (List.nodup_cons.mp hnd).2).1
    have huv : u ≠ v := fun h => h1 (by rw [h]; simp)
    have huw : u ≠ w := fun h => h1 (by rw [h]; simp)
    have hvw : v ≠ w := fun h => h2 (by rw [h]; simp)
    rcases hall u hu with rfl | rfl <;> rcases hall v hv with rfl | rfl <;>
      rcases hall w hw with rfl | rfl <;> simp_all

theorem fullHouse_cond_iff {dice : List ℕ} (h5 : dice.length = 5) :
    (((Rule.freq dice)[0]? = some 3 ∧ (Rule.freq dice)[1]? = some 2) ∨
      ((Rule.freq dice)[0]? = some 2 ∧ (Rule.freq dice)[1]? = some 3)) ↔
    hasFullHousePattern dice := by
  constructor
  · rintro (⟨h0, h1⟩ | ⟨h0, h1⟩)
    · obtain ⟨a, ha, hca⟩ := freq_getElem? h0
      obtain ⟨b, hb, hcb⟩ := freq_getElem? h1
      exact ⟨a, ha, b, hb, fun h => by rw [h] at hca; omega, hca, hcb⟩
    · obtain ⟨a, ha, hca⟩ := freq_getElem? h0
      obtain ⟨b, hb, hcb⟩ := freq_getElem? h1
      exact ⟨b, hb, a, ha, fun h => by rw [h] at hcb; omega, hcb, hca⟩
  · intro hP
    rcases freq_of_pattern h5 hP with hf | hf <;> rw [hf] <;> simp

theorem fullHouse_char (dice : List ℕ) (h5 : dice.length = 5) :
    fullHouse dice = if hasFullHousePattern dice then 25 else 0 := by
  by_cases hP : hasFullHousePattern dice
  · rw [if_pos hP]
    simp only [fullHouse, FullHouse.evalRoll]
    rw [if_pos ((fullHouse_cond_iff h5).mpr hP)]
  · rw [if_neg hP]
    simp only [fullHouse, FullHouse.evalRoll]
    rw [if_neg (fun hc => hP ((fullHouse_cond_iff h5).mp hc))]

/-! ### Yahtzee characterization -/

theorem yahtzee_char (dice : List ℕ) (h5 : dice.length = 5) :
    yahtzee dice = if allSameValue dice then 50 else 0 := by
  cases dice with
  | nil => simp at h5
  | cons d ds =>
      have hfreq : (Rule.freq (d :: ds))[0]? = some (List.count d (d :: ds)) := by
        rw [Rule.freq, distinctFirstSeen, mapKeysAux, if_neg (List.not_mem_nil d)]
        simp
      have hcount_iff : List.count d (d :: ds) = 5 ↔ allSameValue (d :: ds) := by
        rw [← h5, List.count_eq_length]
        constructor
        · intro h; exact ⟨d, List.mem_cons_self d ds, fun x hx => (h x hx).symm⟩
        · rintro ⟨v, hv, hall⟩ x hx
          rw [hall d (List.mem_cons_self d ds)]
          exact (hall x hx).symm
      by_cases hA : allSameValue (d :: ds)
      · rw [if_pos hA]
        simp only [yahtzee, Yahtzee.evalRoll]
        rw [hfreq, if_pos (congrArg some (hcount_iff.mpr hA))]
      · rw [if_neg hA]
        simp only [yahtzee, Yahtzee.evalRoll]
        rw [hfreq, if_neg (fun hc => hA (hcount_iff.mp (Option.some_injective ℕ hc)))]

/-! ### SumDistro characterization -/

theorem sumDistro_cond_iff (M : ℕ) (dice : List ℕ) :
    ((Rule.freq dice).any fun c => decide (M ≤ c)) = true ↔
      ∃ v ∈ dice, M ≤ List.count v dice := by
  rw [List.any_eq_true]
  constructor
  · rintro ⟨c, hc, hMc⟩
    rw [Rule.freq, List.mem_map] at hc
    obtain ⟨v, hv, rfl⟩ := hc
    exact ⟨v, (mem_distinctFirstSeen dice v).mp hv, of_decide_eq_true hMc⟩
  · rintro ⟨v, hv, hMv⟩
    refine ⟨List.count v dice, ?_, decide_eq_true hMv⟩
    rw [Rule.freq]
    exact List.mem_map_of_mem _ ((mem_distinctFirstSeen dice v).mpr hv)

theorem sumDistro_char (M : ℕ) (dice : List ℕ) (h : dice ≠ []) :
    SumDistro.evalRoll M dice =
      if ∃ v ∈ dice, M ≤ List.count v dice then some dice.sum else some 0 := by
  by_cases hp : ∃ v ∈ dice, M ≤ List.count v dice
  · rw [if_pos hp]
    simp only [SumDistro.evalRoll]
    rw [if_pos ((sumDistro_cond_iff M dice).mpr hp), sum_eq_of_ne_nil dice h]
  · rw [if_neg hp]
    simp only [SumDistro.evalRoll]
    rw [if_neg (fun hc => hp ((sumDistro_cond_iff M dice).mp hc))]

/-! ### Large straight characterization -/

theorem largeStraight_char (dice : List ℕ) :
    largeStraight dice =
      if dice.toFinset.card = 5 ∧ (1 ∉ dice ∨ 6 ∉ dice) then 40 else 0 := by
  have hlen : (distinctFirstSeen dice).length = dice.toFinset.card := by
    rw [← toFinset_distinctFirstSeen, List.toFinset_card_of_nodup (nodup_distinctFirstSeen dice)]
  have hcond : ((distinctFirstSeen dice).length = 5 ∧
      (1 ∉ distinctFirstSeen dice ∨ 6 ∉ distinctFirstSeen dice)) ↔
      (dice.toFinset.card = 5 ∧ (1 ∉ dice ∨ 6 ∉ dice)) := by
    rw [hlen, mem_distinctFirstSeen, mem_distinctFirstSeen]
  by_cases hp : dice.toFinset.card = 5 ∧ (1 ∉ dice ∨ 6 ∉ dice)
  · rw [if_pos hp]
    simp only [largeStraight, LargeStraight.evalRoll]
    rw [if_pos (hcond.mpr hp)]
  · rw [if_neg hp]
    simp only [largeStraight, LargeStraight.evalRoll]
    rw [if_neg (fun hc => hp (hcond.mp hc))]

/-! ### Sorting lemmas -/

theorem mem_insertBy (le : ℕ → ℕ → Bool) (a x : ℕ) :
    ∀ l : List ℕ, x ∈ insertBy le a l ↔ x = a ∨ x ∈ l := by
  intro l
  induction l with
  | nil => simp [insertBy]
  | cons b t ih =>
      rw [insertBy]
      by_cases h : le a b
      · rw [if_pos h]; simp [List.mem_cons]
      · rw [if_neg h]; simp [List.mem_cons, ih]; tauto

theorem mem_sortBy (le : ℕ → ℕ → Bool) (x : ℕ) :
    ∀ l : List ℕ, x ∈ sortBy le l ↔ x ∈ l := by
  intro l
  induction l with
  | nil => simp [sortBy]
  | cons a t ih => rw [sortBy, mem_insertBy]; simp [ih, List.mem_cons]

theorem insertBy_congr {le₁ le₂ : ℕ → ℕ → Bool} {a : ℕ} :
    ∀ {l : List ℕ}, (∀ x ∈ l, le₁ a x = le₂ a x) → insertBy le₁ a l = insertBy le₂ a l := by
  intro l
  induction l with
  | nil => intro _; rfl
  | cons b t ih =>
      intro h
      rw [insertBy, insertBy, h b (List.mem_cons_self b t)]
      by_cases hb : le₂ a b
      · rw [if_pos hb, if_pos hb]
      · rw [if_neg hb, if_neg hb, ih (fun x hx => h x (List.mem_cons_of_mem b hx))]

theorem sortBy_congr {le₁ le₂ : ℕ → ℕ → Bool} :
    ∀ {l : List ℕ}, (∀ x ∈ l, ∀ y ∈ l, le₁ x y = le₂ x y) → sortBy le₁ l = sortBy le₂ l := by
  intro l
  induction l with
  | nil => intro _; rfl
  | cons a t ih =>
      intro h
      rw [sortBy, sortBy,
        ih (fun x hx y hy => h x (List.mem_cons_of_mem a hx) y (List.mem_cons_of_mem a hy))]
      apply insertBy_congr
      intro x hx
      exact h a (List.mem_cons_self a t) x
        (List.mem_cons_of_mem a ((mem_sortBy le₂ x t).mp hx))

theorem nodup_insertBy (le : ℕ → ℕ → Bool) (a : ℕ) :
    ∀ l : List ℕ, a ∉ l → l.Nodup → (insertBy le a l).Nodup := by
  intro l
  induction l with
  | nil => intro _ _; simp [insertBy]
  | cons b t ih =>
      intro hna hnd
      rw [insertBy]
      by_cases h : le a b
      · rw [if_pos h]
        exact List.nodup_cons.mpr ⟨hna, hnd⟩
      · rw [if_neg h]
        have hb := List.nodup_cons.mp hnd
        refine List.nodup_cons.mpr
          ⟨?_, ih (fun hm => hna (List.mem_cons_of_mem b hm)) hb.2⟩
        intro hmem
        rcases (mem_insertBy le a b t).mp hmem with h1 | h1
        · exact hna (by rw [← h1]; exact List.mem_cons_self b t)
        · exact hb.1 h1

theorem nodup_sortBy (le : ℕ → ℕ → Bool) :
    ∀ l : List ℕ, l.Nodup → (sortBy le l).Nodup := by
  intro l
  induction l with
  | nil => intro _; simp [sortBy]
  | cons a t ih =>
      intro hnd
      have h := List.nodup_cons.mp hnd
      rw [sortBy]
      exact nodup_insertBy le a _ (fun hm => h.1 ((mem_sortBy le a t).mp hm)) (ih h.2)

theorem pairwise_le_insertBy (a : ℕ) :
    ∀ l : List ℕ, l.Pairwise (· ≤ ·) → (insertBy numLe a l).Pairwise (· ≤ ·) := by
  intro l
  induction l with
  | nil => intro _; simp [insertBy]
  | cons b t ih =>
      intro hp
      have hbt := List.pairwise_cons.mp hp
      rw [insertBy]
      by_cases h : numLe a b
      · rw [if_pos h]
        have hab : a ≤ b := of_decide_eq_true h
        refine List.pairwise_cons.mpr ⟨?_, hp⟩
        intro x hx
        rcases List.mem_cons.mp hx with rfl | hx
        · exact hab
        · exact hab.trans (hbt.1 x hx)
      · rw [if_neg h]
        have hba : b ≤ a := by
          have hnab : ¬ a ≤ b := fun hc => h (decide_eq_true hc)
          omega
        refine List.pairwise_cons.mpr ⟨?_, ih hbt.2⟩
        intro x hx
        rcases (mem_insertBy numLe a x t).mp hx with rfl | hx
        · exact hba
        · exact hbt.1 x hx

theorem pairwise_le_sortBy : ∀ l : List ℕ, (sortBy numLe l).Pairwise (· ≤ ·) := by
  intro l
  induction l with
  | nil => simp [sortBy]
  | cons a t ih => rw [sortBy]; exact pairwise_le_insertBy a _ ih

theorem pairwise_lt_sortBy (l : List ℕ) (hnd : l.Nodup) :
    (sortBy numLe l).Pairwise (· < ·) := by
  have h1 := pairwise_le_sortBy l
  have h2 := nodup_sortBy numLe l hnd
  exact (List.Pairwise.and h2 h1).imp (fun h => lt_of_le_of_ne h.2 h.1)

theorem sublist_of_pairwise_lt_subset :
    ∀ (t s : List ℕ), s.Pairwise (· < ·) → t.Pairwise (· < ·) → s ⊆ t → s.Sublist t := by
  intro t
  induction t with
  | nil =>
      intro s _ _ hsub
      cases s with
      | nil => exact List.Sublist.refl []
      | cons a s2 => exact absurd (hsub (List.mem_cons_self a s2)) (List.not_mem_nil a)
  | cons b t2 ih =>
      intro s hs ht hsub
      cases s with
      | nil => exact List.nil_sublist _
      | cons a s2 =>
          have hbt := List.pairwise_cons.mp ht
          have has := List.pairwise_cons.mp hs
          by_cases hab : a = b
          · subst hab
            refine List.Sublist.cons₂ a (ih s2 has.2 hbt.2 ?_)
            intro x hx
            rcases List.mem_cons.mp (hsub (List.mem_cons_of_mem a hx)) with rfl | hx2
            · exact absurd (has.1 x hx) (lt_irrefl x)
            · exact hx2
          · have hat2 : a ∈ t2 := by
              rcases List.mem_cons.mp (hsub (List.mem_cons_self a s2)) with h | h
              · exact absurd h hab
              · exact h
            have hba : b < a := hbt.1 a hat2
            refine List.Sublist.cons b (ih (a :: s2) hs hbt.2 ?_)
            intro x hx
            rcases List.mem_cons.mp (hsub hx) with rfl | h
            · rcases List.mem_cons.mp hx with h1 | h1
              · exact absurd (h1 ▸ hba) (lt_irrefl _)
              · exact absurd (has.1 x h1) (by omega)
            · exact h

/-! ### Small straight characterization -/

theorem jsLe_eq_numLe_of_lt_ten : ∀ a b : Fin 10, jsLe a.1 b.1 = numLe a.1 b.1 := by decide

theorem scan_iff_run_of_sublist :
    ∀ s ∈ List.sublists [1, 2, 3, 4, 5, 6],
      (4 ≤ SmallStraight.scan 0 1 s ↔ ∃ x ∈ s, x + 1 ∈ s ∧ x + 2 ∈ s ∧ x + 3 ∈ s) := by
  decide

theorem sortBy_js_eq_num (l : List ℕ) (hb : ∀ x ∈ l, x ≤ 6) :
    sortBy jsLe l = sortBy numLe l := by
  apply sortBy_congr
  intro x hx y hy
  have hx6 := hb x hx
  have hy6 := hb y hy
  exact jsLe_eq_numLe_of_lt_ten ⟨x, by omega⟩ ⟨y, by omega⟩

theorem smallStraight_eq_numeric (score : ℕ) (dice : List ℕ)
    (hb : ∀ x ∈ dice, 1 ≤ x ∧ x ≤ 6) :
    SmallStraight.evalRoll score dice = SmallStraightNumeric.evalRoll score dice := by
  simp only [SmallStraight.evalRoll, SmallStraightNumeric.evalRoll]
  rw [sortBy_js_eq_num _ (fun x hx => (hb x ((mem_distinctFirstSeen dice x).mp hx)).2)]

theorem smallStraight_char (dice : List ℕ) (hb : ∀ x ∈ dice, 1 ≤ x ∧ x ≤ 6) :
    smallStraight dice = if hasRunOfFour dice then 30 else 0 := by
  have hmem : ∀ x, x ∈ sortBy numLe (distinctFirstSeen dice) ↔ x ∈ dice := fun x =>
    (mem_sortBy numLe x _).trans (mem_distinctFirstSeen dice x)
  have hsl : (sortBy numLe (distinctFirstSeen dice)).Sublist [1, 2, 3, 4, 5, 6] := by
    apply sublist_of_pairwise_lt_subset
    · exact pairwise_lt_sortBy _ (nodup_distinctFirstSeen dice)
    · decide
    · intro x hx
      have hx16 := hb x ((hmem x).mp hx)
      simp only [List.mem_cons, List.not_mem_nil, or_false]
      omega
  have hiff := scan_iff_run_of_sublist _ (List.mem_sublists.mpr hsl)
  have hrun : (∃ x ∈ sortBy numLe (distinctFirstSeen dice),
      x + 1 ∈ sortBy numLe (distinctFirstSeen dice) ∧
      x + 2 ∈ sortBy numLe (distinctFirstSeen dice) ∧
      x + 3 ∈ sortBy numLe (distinctFirstSeen dice)) ↔ hasRunOfFour dice := by
    constructor
    · rintro ⟨x, h1, h2, h3, h4⟩
      exact ⟨x, (hmem x).mp h1, (hmem _).mp h2, (hmem _).mp h3, (hmem _).mp h4⟩
    · rintro ⟨x, h1, h2, h3, h4⟩
      exact ⟨x, (hmem x).mpr h1, (hmem _).mpr h2, (hmem _).mpr h3, (hmem _).mpr h4⟩
  simp only [smallStraight]
  rw [smallStraight_eq_numeric 30 dice hb]
  simp only [SmallStraightNumeric.evalRoll]
  by_cases hp : hasRunOfFour dice
  · rw [if_pos hp, if_pos (hiff.mpr (hrun.mpr hp))]
  · rw [if_neg hp, if_neg (fun hc => hp (hrun.mp (hiff.mp hc)))]

/-! ### Claim theorems -/

/-- Claim C1: for every valid roll, `fullHouse.evalRoll` returns 25 iff one face
appears exactly 3 times and another exactly 2 times (frequency counts exactly
{3,2}), and returns 0 otherwise; in particular five-of-a-kind returns 0. -/
theorem C1_fullHouse_score (dice : List ℕ) (hv : validRoll dice) :
    (fullHouse dice = 25 ↔ hasFullHousePattern dice) ∧
    (fullHouse dice = 0 ↔ ¬ hasFullHousePattern dice) := by
  rw [fullHouse_char dice hv.1]
  by_cases hP : hasFullHousePattern dice <;> simp [hP]

/-- Witness for C1: the five-of-a-kind roll [5,5,5,5,5] scores 0 and the
full house [3,3,3,2,2] scores 25. -/
theorem C1_fullHouse_score_witness :
    fullHouse [5, 5, 5, 5, 5] = 0 ∧ fullHouse [3, 3, 3, 2, 2] = 25 :=
  ⟨(C1_fullHouse_score [5, 5, 5, 5, 5] (by decide)).2.mpr (by decide),
    (C1_fullHouse_score [3, 3, 3, 2, 2] (by decide)).1.mpr (by decide)⟩

/-- Claim C2: for every valid roll, `smallStraight.evalRoll` returns 30 iff four
consecutive face values are all present (the longest run of consecutive integers
among the sorted distinct values has length at least 4), else 0. -/
theorem C2_smallStraight_score (dice : List ℕ) (hv : validRoll dice) :
    (smallStraight dice = 30 ↔ hasRunOfFour dice) ∧
    (smallStraight dice = 0 ↔ ¬ hasRunOfFour dice) := by
  rw [smallStraight_char dice hv.2]
  by_cases hP : hasRunOfFour dice <;> simp [hP]

/-- Witness for C2: [1,2,3,4,6] scores 30 and [1,2,3,5,6] scores 0. -/
theorem C2_smallStraight_score_witness :
    smallStraight [1, 2, 3, 4, 6] = 30 ∧ smallStraight [1, 2, 3, 5, 6] = 0 :=
  ⟨(C2_smallStraight_score [1, 2, 3, 4, 6] (by decide)).1.mpr (by decide),
    (C2_smallStraight_score [1, 2, 3, 5, 6] (by decide)).2.mpr (by decide)⟩

/-- Claim C4: for every valid roll, `yahtzee.evalRoll` returns 50 iff all 5 dice
show the same value, else 0: the code's check that the first frequency entry
equals 5 is equivalent to the all-same-value condition. -/
theorem C4_yahtzee_score (dice : List ℕ) (hv : validRoll dice) :
    (yahtzee dice = 50 ↔ allSameValue dice) ∧
    (yahtzee dice = 0 ↔ ¬ allSameValue dice) := by
  rw [yahtzee_char dice hv.1]
  by_cases hP : allSameValue dice <;> simp [hP]

/-- Witness for C4: [4,4,4,4,4] scores 50 and [4,4,4,4,3] scores 0. -/
theorem C4_yahtzee_score_witness :
    yahtzee [4, 4, 4, 4, 4] = 50 ∧ yahtzee [4, 4, 4, 4, 3] = 0 :=
  ⟨(C4_yahtzee_score [4, 4, 4, 4, 4] (by decide)).1.mpr (by decide),
    (C4_yahtzee_score [4, 4, 4, 4, 3] (by decide)).2.mpr (by decide)⟩

/-- Claim C5: for every valid roll, the MatchingSetSum rules return the sum of
all dice when some face occurs at least M times (M = 3 for threeOfKind, 4 for
fourOfKind) and 0 otherwise, and chance (M = 0) always returns the sum. -/
theorem C5_sumDistro_score (dice : List ℕ) (hv : validRoll dice) :
    ((∃ v ∈ dice, 3 ≤ List.count v dice) → threeOfKind dice = some dice.sum) ∧
    (¬ (∃ v ∈ dice, 3 ≤ List.count v dice) → threeOfKind dice = some 0) ∧
    ((∃ v ∈ dice, 4 ≤ List.count v dice) → fourOfKind dice = some dice.sum) ∧
    (¬ (∃ v ∈ dice, 4 ≤ List.count v dice) → fourOfKind dice = some 0) ∧
    chance dice = some dice.sum := by
  have hne : dice ≠ [] := by
    intro h
    have h5 := hv.1
    rw [h] at h5
    simp at h5
  obtain ⟨d, ds, rfl⟩ : ∃ d ds, dice = d :: ds := by
    cases dice with
    | nil => exact absurd rfl hne
    | cons d ds => exact ⟨d, ds, rfl⟩
  refine ⟨?_, ?_, ?_, ?_, ?_⟩
  · intro hp
    simp only [threeOfKind]
    rw [sumDistro_char 3 _ hne, if_pos hp]
  · intro hp
    simp only [threeOfKind]
    rw [sumDistro_char 3 _ hne, if_neg hp]
  · intro hp
    simp only [fourOfKind]
    rw [sumDistro_char 4 _ hne, if_pos hp]
  · intro hp
    simp only [fourOfKind]
    rw [sumDistro_char 4 _ hne, if_neg hp]
  · simp only [chance]
    rw [sumDistro_char 0 _ hne,
      if_pos ⟨d, List.mem_cons_self d ds, Nat.zero_le _⟩]

/-- Witness for C5: threeOfKind on [3,3,3,2,2] gives 13, on [3,3,2,2,1] gives 0,
and chance on [2,3,3,4,6] gives 18. -/
theorem C5_sumDistro_score_witness :
    threeOfKind [3, 3, 3, 2, 2] = some 13 ∧ threeOfKind [3, 3, 2, 2, 1] = some 0 ∧
    chance [2, 3, 3, 4, 6] = some 18 := by
  refine ⟨?_, ?_, ?_⟩
  · have h := (C5_sumDistro_score [3, 3, 3, 2, 2] (by decide)).1 (by decide)
    simpa using h
  · exact (C5_sumDistro_score [3, 3, 2, 2, 1] (by decide)).2.1 (by decide)
  · have h := (C5_sumDistro_score [2, 3, 3, 4, 6] (by decide)).2.2.2.2
    simpa using h

/-- Claim C9: `Rule.sum` errors (returns none) on the empty roll, returns the
arithmetic sum of the dice on every non-empty roll, and is total under the
5-dice invariant. -/
theorem C9_sum_safety :
    Rule.sum [] = none ∧
    (∀ dice : List ℕ, dice ≠ [] → Rule.sum dice = some dice.sum) ∧
    (∀ dice : List ℕ, dice.length = 5 → Rule.sum dice = some dice.sum) := by
  refine ⟨rfl, fun dice h => sum_eq_of_ne_nil dice h, fun dice h5 => ?_⟩
  apply sum_eq_of_ne_nil
  intro h
  rw [h] at h5
  simp at h5

/-- Witness for C9: the sum of [2,3,3,4,6] is 18. -/
theorem C9_sum_safety_witness : Rule.sum [2, 3, 3, 4, 6] = some 18 := by
  have h := C9_sum_safety.2.1 [2, 3, 3, 4, 6] (by decide)
  simpa using h

/-- Claim C10: for every roll with values in [1,6], sorting the distinct values
with the JS default (string-lexicographic) comparator coincides with ascending
numeric sort, so the small-straight evaluation equals its numeric-sort variant. -/
theorem C10_sort_refinement (dice : List ℕ) (hb : ∀ x ∈ dice, 1 ≤ x ∧ x ≤ 6) :
    sortBy jsLe (distinctFirstSeen dice) = sortBy numLe (distinctFirstSeen dice) ∧
    SmallStraight.evalRoll 30 dice = SmallStraightNumeric.evalRoll 30 dice :=
  ⟨sortBy_js_eq_num _ (fun x hx => (hb x ((mem_distinctFirstSeen dice x).mp hx)).2),
    smallStraight_eq_numeric 30 dice hb⟩

/-- Witness for C10 at the roll [3,1,6,2,4]. -/
theorem C10_sort_refinement_witness :
    sortBy jsLe (distinctFirstSeen [3, 1, 6, 2, 4]) =
      sortBy numLe (distinctFirstSeen [3, 1, 6, 2, 4]) ∧
    SmallStraight.evalRoll 30 [3, 1, 6, 2, 4] =
      SmallStraightNumeric.evalRoll 30 [3, 1, 6, 2, 4] :=
  C10_sort_refinement [3, 1, 6, 2, 4] (by decide)

theorem distinct_five_iff_contiguous (dice : List ℕ) (hv : validRoll dice) :
    (dice.toFinset.card = 5 ∧ (1 ∉ dice ∨ 6 ∉ dice)) ↔
    (dice.dedup.Perm [1, 2, 3, 4, 5] ∨ dice.dedup.Perm [2, 3, 4, 5, 6]) := by
  constructor
  · rintro ⟨hcard, hmiss⟩
    rcases hmiss with h1 | h6
    · right
      have hsub : dice.toFinset ⊆ Finset.Icc 2 6 := by
        intro x hx
        rw [List.mem_toFinset] at hx
        have hb := hv.2 x hx
        have hx1 : x ≠ 1 := fun h => h1 (h ▸ hx)
        rw [Finset.mem_Icc]
        omega
      have hset : dice.toFinset = Finset.Icc 2 6 := by
        apply Finset.eq_of_subset_of_card_le hsub
        rw [Nat.card_Icc, hcard]
      refine (List.perm_ext_iff_of_nodup (List.nodup_dedup dice) (by decide)).mpr ?_
      intro x
      rw [List.mem_dedup, ← List.mem_toFinset, hset, Finset.mem_Icc]
      simp only [List.mem_cons, List.not_mem_nil, or_false]
      omega
    · left
      have hsub : dice.toFinset ⊆ Finset.Icc 1 5 := by
        intro x hx
        rw [List.mem_toFinset] at hx
        have hb := hv.2 x hx
        have hx6 : x ≠ 6 := fun h => h6 (h ▸ hx)
        rw [Finset.mem_Icc]
        omega
      have hset : dice.toFinset = Finset.Icc 1 5 := by
        apply Finset.eq_of_subset_of_card_le hsub
        rw [Nat.card_Icc, hcard]
      refine (List.perm_ext_iff_of_nodup (List.nodup_dedup dice) (by decide)).mpr ?_
      intro x
      rw [List.mem_dedup, ← List.mem_toFinset, hset, Finset.mem_Icc]
      simp only [List.mem_cons, List.not_mem_nil, or_false]
      omega
  · rintro (hperm | hperm)
    · have hset : dice.toFinset = ({1, 2, 3, 4, 5} : Finset ℕ) := by
        ext x
        rw [List.mem_toFinset, ← List.mem_dedup, hperm.mem_iff]
        simp
      constructor
      · rw [hset]; rfl
      · refine Or.inr fun h6 => ?_
        have h := hperm.mem_iff.mp (List.mem_dedup.mpr h6)
        simp at h
    · have hset : dice.toFinset = ({2, 3, 4, 5, 6} : Finset ℕ) := by
        ext x
        rw [List.mem_toFinset, ← List.mem_dedup, hperm.mem_iff]
        simp
      constructor
      · rw [hset]; rfl
      · refine Or.inl fun h1 => ?_
        have h := hperm.mem_iff.mp (List.mem_dedup.mpr h1)
        simp at h

/-- Claim C3: for every valid roll, `largeStraight.evalRoll` returns 40 iff the
roll has exactly 5 distinct values and (1 is absent or 6 is absent) —
equivalently the distinct values are exactly {1..5} or {2..6} — and 0 otherwise. -/
theorem C3_largeStraight_score (dice : List ℕ) (hv : validRoll dice) :
    (largeStraight dice = 40 ↔ (dice.toFinset.card = 5 ∧ (1 ∉ dice ∨ 6 ∉ dice))) ∧
    (largeStraight dice = 40 ↔
      (dice.dedup.Perm [1, 2, 3, 4, 5] ∨ dice.dedup.Perm [2, 3, 4, 5, 6])) ∧
    (largeStraight dice = 0 ↔ ¬ (dice.toFinset.card = 5 ∧ (1 ∉ dice ∨ 6 ∉ dice))) := by
  have hiff := distinct_five_iff_contiguous dice hv
  rw [largeStraight_char dice]
  by_cases hp : dice.toFinset.card = 5 ∧ (1 ∉ dice ∨ 6 ∉ dice)
  · simp [hp, hiff.mp hp]
  · simp [hp, show ¬ (dice.dedup.Perm [1, 2, 3, 4, 5] ∨ dice.dedup.Perm [2, 3, 4, 5, 6])
      from fun hper => hp (hiff.mpr hper)]

/-- Witness for C3: [1,2,3,4,5] and [2,3,4,5,6] score 40, [1,2,3,4,6] scores 0. -/
theorem C3_largeStraight_score_witness :
    largeStraight [1, 2, 3, 4, 5] = 40 ∧ largeStraight [2, 3, 4, 5, 6] = 40 ∧
    largeStraight [1, 2, 3, 4, 6] = 0 :=
  ⟨(C3_largeStraight_score [1, 2, 3, 4, 5] (by decide)).1.mpr (by decide),
    (C3_largeStraight_score [2, 3, 4, 5, 6] (by decide)).1.mpr (by decide),
    (C3_largeStraight_score [1, 2, 3, 4, 6] (by decide)).2.2.mpr (by decide)⟩

/-- Claim C6: for every valid roll and every target face V in [1,6], the
FaceValueSum rule returns V times the number of dice equal to V, and the result
is one of 0, V, 2V, 3V, 4V, 5V. -/
theorem C6_faceValueSum (dice : List ℕ) (hv : validRoll dice)
    (V : ℕ) (h1 : 1 ≤ V) (h6 : V ≤ 6) :
    TotalOneNumber.evalRoll V dice = V * List.count V dice ∧
    (∃ k ≤ 5, TotalOneNumber.evalRoll V dice = V * k) ∧
    TotalOneNumber.evalRoll V dice ∈ [0, V, 2 * V, 3 * V, 4 * V, 5 * V] := by
  have hc : TotalOneNumber.evalRoll V dice = V * List.count V dice := by
    simp only [TotalOneNumber.evalRoll]
    rw [count_eq]
  have hk : List.count V dice ≤ 5 := by
    rw [← hv.1]
    exact List.count_le_length V dice
  have hgen : ∀ k : ℕ, k ≤ 5 → V * k ∈ [0, V, 2 * V, 3 * V, 4 * V, 5 * V] := by
    intro k hk2
    interval_cases k <;> (simp only [List.mem_cons, List.not_mem_nil, or_false]; omega)
  exact ⟨hc, ⟨List.count V dice, hk, hc⟩, by rw [hc]; exact hgen _ hk⟩

/-- Witness for C6: fives on [5,5,2,5,3] gives 15 = 5 × 3. -/
theorem C6_faceValueSum_witness :
    TotalOneNumber.evalRoll 5 [5, 5, 2, 5, 3] = 5 * List.count 5 [5, 5, 2, 5, 3] ∧
    (∃ k ≤ 5, TotalOneNumber.evalRoll 5 [5, 5, 2, 5, 3] = 5 * k) ∧
    TotalOneNumber.evalRoll 5 [5, 5, 2, 5, 3] ∈ [0, 5, 2 * 5, 3 * 5, 4 * 5, 5 * 5] :=
  C6_faceValueSum [5, 5, 2, 5, 3] (by decide) 5 (by decide) (by decide)

/-- Claim C7: for every valid roll and every permutation of it, each exported
rule's evalRoll returns the same score on the permuted roll: results depend only
on the multiset of dice values. -/
theorem C7_perm_invariant (dice dice2 : List ℕ) (hv : validRoll dice)
    (hp : dice2.Perm dice) :
    ones dice2 = ones dice ∧ twos dice2 = twos dice ∧ threes dice2 = threes dice ∧
    fours dice2 = fours dice ∧ fives dice2 = fives dice ∧ sixes dice2 = sixes dice ∧
    threeOfKind dice2 = threeOfKind dice ∧ fourOfKind dice2 = fourOfKind dice ∧
    fullHouse dice2 = fullHouse dice ∧ smallStraight dice2 = smallStraight dice ∧
    largeStraight dice2 = largeStraight dice ∧ yahtzee dice2 = yahtzee dice ∧
    chance dice2 = chance dice := by
  have hv2 : validRoll dice2 :=
    ⟨hp.length_eq.trans hv.1, fun x hx => hv.2 x (hp.mem_iff.mp hx)⟩
  have hcount : ∀ v, List.count v dice2 = List.count v dice := fun v => hp.count_eq v
  have hmem : ∀ v : ℕ, v ∈ dice2 ↔ v ∈ dice := fun v => hp.mem_iff
  have hsum : dice2.sum = dice.sum := hp.sum_eq
  have hfin : dice2.toFinset = dice.toFinset := List.toFinset_eq_of_perm _ _ hp
  have hne : dice ≠ [] := by
    intro h
    have h5 := hv.1
    rw [h] at h5
    simp at h5
  have hne2 : dice2 ≠ [] := by
    intro h
    have h5 := hv2.1
    rw [h] at h5
    simp at h5
  have htot : ∀ V, TotalOneNumber.evalRoll V dice2 = TotalOneNumber.evalRoll V dice := by
    intro V
    simp only [TotalOneNumber.evalRoll, count_eq]
    rw [hcount V]
  have hsd : ∀ M, SumDistro.evalRoll M dice2 = SumDistro.evalRoll M dice := by
    intro M
    rw [sumDistro_char M dice2 hne2, sumDistro_char M dice hne, hsum]
    by_cases hc : ∃ v ∈ dice, M ≤ List.count v dice
    · obtain ⟨v, hvm, hcv⟩ := hc
      rw [if_pos ⟨v, (hmem v).mpr hvm, by rw [hcount v]; exact hcv⟩, if_pos ⟨v, hvm, hcv⟩]
    · rw [if_neg hc, if_neg ?_]
      rintro ⟨v, hvm, hcv⟩
      exact hc ⟨v, (hmem v).mp hvm, by rw [← hcount v]; exact hcv⟩
  refine ⟨htot 1, htot 2, htot 3, htot 4, htot 5, htot 6, hsd 3, hsd 4, ?_, ?_, ?_, ?_, hsd 0⟩
  · rw [fullHouse_char dice2 hv2.1, fullHouse_char dice hv.1]
    have hpat : hasFullHousePattern dice2 ↔ hasFullHousePattern dice := by
      constructor
      · rintro ⟨a, ha, b, hb, hab, hca, hcb⟩
        exact ⟨a, (hmem a).mp ha, b, (hmem b).mp hb, hab,
          by rw [← hcount a]; exact hca, by rw [← hcount b]; exact hcb⟩
      · rintro ⟨a, ha, b, hb, hab, hca, hcb⟩
        exact ⟨a, (hmem a).mpr ha, b, (hmem b).mpr hb, hab,
          by rw [hcount a]; exact hca, by rw [hcount b]; exact hcb⟩
    by_cases hP : hasFullHousePattern dice
    · rw [if_pos hP, if_pos (hpat.mpr hP)]
    · rw [if_neg hP, if_neg (fun h => hP (hpat.mp h))]
  · rw [smallStraight_char dice2 hv2.2, smallStraight_char dice hv.2]
    have hpat : hasRunOfFour dice2 ↔ hasRunOfFour dice := by
      constructor
      · rintro ⟨x, h1, h2, h3, h4⟩
        exact ⟨x, (hmem x).mp h1, (hmem _).mp h2, (hmem _).mp h3, (hmem _).mp h4⟩
      · rintro ⟨x, h1, h2, h3, h4⟩
        exact ⟨x, (hmem x).mpr h1, (hmem _).mpr h2, (hmem _).mpr h3, (hmem _).mpr h4⟩
    by_cases hP : hasRunOfFour dice
    · rw [if_pos hP, if_pos (hpat.mpr hP)]
    · rw [if_neg hP, if_neg (fun h => hP (hpat.mp h))]
  · rw [largeStraight_char dice2, largeStraight_char dice]
    have hpat : (dice2.toFinset.card = 5 ∧ (1 ∉ dice2 ∨ 6 ∉ dice2)) ↔
        (dice.toFinset.card = 5 ∧ (1 ∉ dice ∨ 6 ∉ dice)) := by
      rw [hfin, hmem 1, hmem 6]
    by_cases hP : dice.toFinset.card = 5 ∧ (1 ∉ dice ∨ 6 ∉ dice)
    · rw [if_pos hP, if_pos (hpat.mpr hP)]
    · rw [if_neg hP, if_neg (fun h => hP (hpat.mp h))]
  · rw [yahtzee_char dice2 hv2.1, yahtzee_char dice hv.1]
    have hpat : allSameValue dice2 ↔ allSameValue dice := by
      constructor
      · rintro ⟨v, hvm, hall⟩
        exact ⟨v, (hmem v).mp hvm, fun x hx => hall x ((hmem x).mpr hx)⟩
      · rintro ⟨v, hvm, hall⟩
        exact ⟨v, (hmem v).mpr hvm, fun x hx => hall x ((hmem x).mp hx)⟩
    by_cases hP : allSameValue dice
    · rw [if_pos hP, if_pos (hpat.mpr hP)]
    · rw [if_neg hP, if_neg (fun h => hP (hpat.mp h))]

/-- Witness for C7: the rule scores agree on [1,2,3,4,6] and its permutation
[6,4,3,2,1]. -/
theorem C7_perm_invariant_witness :
    ones [6, 4, 3, 2, 1] = ones [1, 2, 3, 4, 6] ∧
    twos [6, 4, 3, 2, 1] = twos [1, 2, 3, 4, 6] ∧
    threes [6, 4, 3, 2, 1] = threes [1, 2, 3, 4, 6] ∧
    fours [6, 4, 3, 2, 1] = fours [1, 2, 3, 4, 6] ∧
    fives [6, 4, 3, 2, 1] = fives [1, 2, 3, 4, 6] ∧
    sixes [6, 4, 3, 2, 1] = sixes [1, 2, 3, 4, 6] ∧
    threeOfKind [6, 4, 3, 2, 1] = threeOfKind [1, 2, 3, 4, 6] ∧
    fourOfKind [6, 4, 3, 2, 1] = fourOfKind [1, 2, 3, 4, 6] ∧
    fullHouse [6, 4, 3, 2, 1] = fullHouse [1, 2, 3, 4, 6] ∧
    smallStraight [6, 4, 3, 2, 1] = smallStraight [1, 2, 3, 4, 6] ∧
    largeStraight [6, 4, 3, 2, 1] = largeStraight [1, 2, 3, 4, 6] ∧
    yahtzee [6, 4, 3, 2, 1] = yahtzee [1, 2, 3, 4, 6] ∧
    chance [6, 4, 3, 2, 1] = chance [1, 2, 3, 4, 6] :=
  C7_perm_invariant [1, 2, 3, 4, 6] [6, 4, 3, 2, 1] (by decide) (by decide)

/-- Claim C8: for every valid roll every rule's score is a non-negative integer;
each flat-score rule returns either 0 or exactly its flat score, and the
sum-based rules always return a value. -/
theorem C8_score_range (dice : List ℕ) (hv : validRoll dice) :
    (fullHouse dice = 0 ∨ fullHouse dice = 25) ∧
    (smallStraight dice = 0 ∨ smallStraight dice = 30) ∧
    (largeStraight dice = 0 ∨ largeStraight dice = 40) ∧
    (yahtzee dice = 0 ∨ yahtzee dice = 50) ∧
    (∃ n : ℕ, threeOfKind dice = some n) ∧
    (∃ n : ℕ, fourOfKind dice = some n) ∧
    (∃ n : ℕ, chance dice = some n) ∧
    0 ≤ ones dice ∧ 0 ≤ twos dice ∧ 0 ≤ threes dice ∧
    0 ≤ fours dice ∧ 0 ≤ fives dice ∧ 0 ≤ sixes dice := by
  have hne : dice ≠ [] := by
    intro h
    have h5 := hv.1
    rw [h] at h5
    simp at h5
  have hsd : ∀ M, ∃ n : ℕ, SumDistro.evalRoll M dice = some n := by
    intro M
    rw [sumDistro_char M dice hne]
    by_cases hP : ∃ v ∈ dice, M ≤ List.count v dice
    · exact ⟨dice.sum, by rw [if_pos hP]⟩
    · exact ⟨0, by rw [if_neg hP]⟩
  refine ⟨?_, ?_, ?_, ?_, hsd 3, hsd 4, hsd 0, Nat.zero_le _, Nat.zero_le _,
    Nat.zero_le _, Nat.zero_le _, Nat.zero_le _, Nat.zero_le _⟩
  · rw [fullHouse_char dice hv.1]
    by_cases hP : hasFullHousePattern dice <;> simp [hP]
  · rw [smallStraight_char dice hv.2]
    by_cases hP : hasRunOfFour dice <;> simp [hP]
  · rw [largeStraight_char dice]
    by_cases hP : dice.toFinset.card = 5 ∧ (1 ∉ dice ∨ 6 ∉ dice) <;> simp [hP]
  · rw [yahtzee_char dice hv.1]
    by_cases hP : allSameValue dice <;> simp [hP]

/-- Witness for C8 at the roll [2,2,3,3,3]. -/
theorem C8_score_range_witness :
    (fullHouse [2, 2, 3, 3, 3] = 0 ∨ fullHouse [2, 2, 3, 3, 3] = 25) ∧
    (smallStraight [2, 2, 3, 3, 3] = 0 ∨ smallStraight [2, 2, 3, 3, 3] = 30) ∧
    (largeStraight [2, 2, 3, 3, 3] = 0 ∨ largeStraight [2, 2, 3, 3, 3] = 40) ∧
    (yahtzee [2, 2, 3, 3, 3] = 0 ∨ yahtzee [2, 2, 3, 3, 3] = 50) ∧
    (∃ n : ℕ, threeOfKind [2, 2, 3, 3, 3] = some n) ∧
    (∃ n : ℕ, fourOfKind [2, 2, 3, 3, 3] = some n) ∧
    (∃ n : ℕ, chance [2, 2, 3, 3, 3] = some n) ∧
    0 ≤ ones [2, 2, 3, 3, 3] ∧ 0 ≤ twos [2, 2, 3, 3, 3] ∧ 0 ≤ threes [2, 2, 3, 3, 3] ∧
    0 ≤ fours [2, 2, 3, 3, 3] ∧ 0 ≤ fives [2, 2, 3, 3, 3] ∧ 0 ≤ sixes [2, 2, 3, 3, 3] :=
  C8_score_range [2, 2, 3, 3, 3] (by decide)

end Rules
